import Mathlib

/-!
# SoundFontsPlusAU parameter addresses

A verification development for
`SoundFontsPlusAU/Parameters/SoundFontsPlusAUParameterAddresses.h`:

    typedef NS_ENUM(AUParameterAddress, SoundFontsPlusAUParameterAddress) {
        gain = 0
    };

which follows the inclusion of `AudioToolbox/AUParameters.h`.

The header is embedded twice, and the two embeddings are tied together by
`symbol_address`:

* as a Lean enumeration `SoundFontsPlusAUParameterAddress` with the conversion
  `rawValue` to the underlying integer type;
* as the enumerator list `declaration`, evaluated by `enumValues`, which
  follows the C rule for enumeration constants (an enumerator with `= e` has
  the value of `e`; one without it has the value of the previous enumerator
  plus one; the first has value `0`).
-/

set_option autoImplicit false

namespace SoundFontsPlus

/-- Modelled from the spec: the width in bits of `AUParameterAddress`, the
underlying type named at line 12. Its declaration lives in
`AudioToolbox/AUParameters.h` (included at line 10, not part of the sources),
where it is `typedef uint64_t AUParameterAddress;`. -/
def AUParameterAddress.bits : Nat := 64

/-- Conversion of the value of an integer constant expression to the unsigned
underlying type `AUParameterAddress`: reduction modulo `2 ^ bits`. -/
def AUParameterAddress.ofInt (v : Int) : Nat :=
  (v % 2 ^ AUParameterAddress.bits).toNat

/-- One enumerator of a C enumeration: its identifier and, when it is written
`name = e`, the value of the constant expression `e`. -/
structure Enumerator where
  name : String
  initExpr : Option Int
deriving DecidableEq, Repr

/-- Values of the enumeration constants of an enumerator list, where `next` is
the value an enumerator without `=` receives (previous value plus one). -/
def enumValuesFrom : Int → List Enumerator → List (String × Int)
  | _, [] => []
  | next, e :: es =>
    (e.name, e.initExpr.getD next) :: enumValuesFrom (e.initExpr.getD next + 1) es

/-- Values of the enumeration constants of a whole enumerator list: the first
enumerator without `=` has value `0`. -/
def enumValues (d : List Enumerator) : List (String × Int) :=
  enumValuesFrom 0 d

/-- The value bound to an identifier in a list of enumeration constants. -/
def lookupValue (name : String) : List (String × Int) → Option Int
  | [] => none
  | (n, v) :: rest => if n = name then some v else lookupValue name rest

/-- The numeric address a table gives to a symbolic name, as a value of the
underlying type; `none` when the table declares no such name. -/
def addressOf (d : List Enumerator) (name : String) : Option Nat :=
  (lookupValue name (enumValues d)).map AUParameterAddress.ofInt

/-- The enumeration of lines 12 to 14: its only member is `gain`. -/
inductive SoundFontsPlusAUParameterAddress where
  | gain
deriving DecidableEq, Repr, Fintype

/-- The identifier of each enumerator, as written in the header. -/
def SoundFontsPlusAUParameterAddress.symbol : SoundFontsPlusAUParameterAddress → String
  | .gain => "gain"

/-- The value of the initializer of each enumerator (line 13: `gain = 0`). -/
def SoundFontsPlusAUParameterAddress.explicitValue : SoundFontsPlusAUParameterAddress → Int
  | .gain => 0

/-- Conversion of an enumerator to its underlying `AUParameterAddress`. -/
def SoundFontsPlusAUParameterAddress.rawValue (a : SoundFontsPlusAUParameterAddress) : Nat :=
  AUParameterAddress.ofInt a.explicitValue

/-- The enumerator list between the braces of lines 12 to 14. -/
def SoundFontsPlusAUParameterAddress.declaration : List Enumerator :=
  [⟨"gain", some 0⟩]

/-! ## Helper lemmas -/

/-- The enumeration type and the enumerator list agree: looking a member up by
its identifier in the evaluated declaration gives its `rawValue`. -/
theorem symbol_address (a : SoundFontsPlusAUParameterAddress) :
    addressOf SoundFontsPlusAUParameterAddress.declaration a.symbol = some a.rawValue := by
  cases a
  rfl

/-- Unfolding of `enumValuesFrom` at a non-empty enumerator list. -/
theorem enumValuesFrom_cons (next : Int) (e : Enumerator) (es : List Enumerator) :
    enumValuesFrom next (e :: es) =
      (e.name, e.initExpr.getD next) :: enumValuesFrom (e.initExpr.getD next + 1) es :=
  rfl

/-- The evaluated list declares exactly the identifiers of the enumerator
list, in the same order. -/
theorem enumValuesFrom_names (d : List Enumerator) :
    ∀ next : Int, (enumValuesFrom next d).map Prod.fst = d.map Enumerator.name := by
  induction d with
  | nil => intro next; rfl
  | cons e es ih =>
    intro next
    simp [enumValuesFrom_cons, ih]

/-- An identifier that the list does not declare has no value. -/
theorem lookupValue_eq_none (name : String) (d : List Enumerator) :
    ∀ next : Int, name ∉ d.map Enumerator.name →
      lookupValue name (enumValuesFrom next d) = none := by
  induction d with
  | nil => intro next _; rfl
  | cons e es ih =>
    intro next hnot
    have hne : e.name ≠ name := by
      intro h
      exact hnot (by simp [h])
    have htail : name ∉ es.map Enumerator.name := by
      intro h
      exact hnot (by simp only [List.map_cons, List.mem_cons]; exact Or.inr h)
    simp [enumValuesFrom_cons, lookupValue, hne, ih _ htail]

/-- In an enumerator list with pairwise distinct identifiers, an enumerator
written `name = v` has value `v`, whatever precedes or follows it and whatever
value the counter `next` has on entry. -/
theorem lookupValue_of_explicit (name : String) (v : Int) (d : List Enumerator) :
    ∀ next : Int, (d.map Enumerator.name).Nodup →
      (⟨name, some v⟩ : Enumerator) ∈ d →
      lookupValue name (enumValuesFrom next d) = some v := by
  induction d with
  | nil => intro next _ hmem; simp at hmem
  | cons e es ih =>
    intro next hnodup hmem
    have hnd : e.name ∉ es.map Enumerator.name ∧ (es.map Enumerator.name).Nodup :=
      List.nodup_cons.mp hnodup
    rcases List.mem_cons.mp hmem with heq | htail
    · subst heq
      simp [enumValuesFrom_cons, lookupValue]
    · have hne : e.name ≠ name := by
        intro h
        apply hnd.1
        rw [h]
        exact List.mem_map.mpr ⟨_, htail, rfl⟩
      simp [enumValuesFrom_cons, lookupValue, hne, ih _ hnd.2 htail]

/-- Without an initializer the value of an enumerator does depend on its
position: a bare `gain` placed second is numbered `1`. -/
theorem implicit_value_depends_on_position :
    addressOf [⟨"gain", none⟩] "gain" = some 0 ∧
    addressOf [⟨"pan", none⟩, ⟨"gain", none⟩] "gain" = some 1 := by
  constructor <;> rfl

/-- An initializer outside the range of the underlying type is reduced modulo
`2 ^ 64` by the conversion. -/
theorem ofInt_wraps :
    AUParameterAddress.ofInt (2 ^ 64) = 0 ∧ AUParameterAddress.ofInt (-1) = 2 ^ 64 - 1 := by
  constructor <;> rfl

/-! ## The claims -/

/-- C1: the enumerator `gain` converts to the underlying `AUParameterAddress`
value `0`; a host that asks the table for the address of the name "gain"
receives `0`; and any number of repeated queries for "gain" all return `0`,
so any two reads agree. -/
theorem gain_address_is_zero :
    SoundFontsPlusAUParameterAddress.gain.rawValue = 0 ∧
    addressOf SoundFontsPlusAUParameterAddress.declaration "gain" = some 0 ∧
    ∀ n : Nat,
      (List.replicate n "gain").map (addressOf SoundFontsPlusAUParameterAddress.declaration)
        = List.replicate n (some 0) := by
  refine ⟨rfl, rfl, ?_⟩
  intro n
  rw [List.map_replicate]
  rfl

/-- C2: the enumeration has exactly one member, `gain`: the set of its
enumerators is `{gain}`, every member is `gain`, the declared identifiers are
exactly the list `["gain"]`, and the set of declared numeric addresses is
`{0}`, both on the enumeration type and on the evaluated enumerator list. -/
theorem only_gain_declared :
    (Finset.univ : Finset SoundFontsPlusAUParameterAddress)
        = {SoundFontsPlusAUParameterAddress.gain} ∧
    (∀ a : SoundFontsPlusAUParameterAddress, a = SoundFontsPlusAUParameterAddress.gain) ∧
    SoundFontsPlusAUParameterAddress.declaration.map Enumerator.name = ["gain"] ∧
    Finset.univ.image SoundFontsPlusAUParameterAddress.rawValue = {0} ∧
    (enumValues SoundFontsPlusAUParameterAddress.declaration).map
        (fun p => AUParameterAddress.ofInt p.2) = [0] := by
  refine ⟨rfl, ?_, rfl, rfl, rfl⟩
  intro a
  cases a
  rfl

/-- C3: the map from enumerators to numeric addresses is injective: two
enumerators of `SoundFontsPlusAUParameterAddress` with the same numeric
address are the same enumerator. -/
theorem address_injective (a b : SoundFontsPlusAUParameterAddress)
    (h : a.rawValue = b.rawValue) : a = b := by
  cases a
  cases b
  rfl

/-- Instance of `address_injective` at the pair `gain`, `gain`. -/
theorem address_injective_witness :
    SoundFontsPlusAUParameterAddress.gain.rawValue
        = SoundFontsPlusAUParameterAddress.gain.rawValue ∧
    SoundFontsPlusAUParameterAddress.gain = SoundFontsPlusAUParameterAddress.gain :=
  ⟨rfl, address_injective SoundFontsPlusAUParameterAddress.gain
    SoundFontsPlusAUParameterAddress.gain rfl⟩

/-- C4: the value written for every enumerator, in particular for `gain`, lies
in the range `0 ≤ v < 2 ^ 64` of the unsigned 64-bit underlying type, so its
conversion to `AUParameterAddress` is exact: no reduction modulo `2 ^ 64`
takes place. -/
theorem address_in_range (a : SoundFontsPlusAUParameterAddress) :
    0 ≤ a.explicitValue ∧ a.explicitValue < 2 ^ 64 ∧
    (a.rawValue : Int) = a.explicitValue ∧
    a.explicitValue % 2 ^ 64 = a.explicitValue ∧
    a.rawValue < 2 ^ 64 := by
  cases a
  refine ⟨?_, ?_, ?_, ?_, ?_⟩ <;> decide

/-- C5: in every enumerator list obtained from the current one by adding
further enumerators, at any position and with any values, while keeping
`gain = 0` (the current list is a sublist of the new one, and the identifiers
of the new list are pairwise distinct, as C requires of a declaration), the
numeric address of `gain` equals its address in the current table, namely
`0`. -/
theorem gain_stable_under_extension (d : List Enumerator)
    (hext : List.Sublist SoundFontsPlusAUParameterAddress.declaration d)
    (hnames : (d.map Enumerator.name).Nodup) :
    addressOf d "gain" = addressOf SoundFontsPlusAUParameterAddress.declaration "gain" ∧
    addressOf d "gain" = some 0 := by
  have hmem : (⟨"gain", some 0⟩ : Enumerator) ∈ d :=
    hext.subset (List.mem_singleton.mpr rfl)
  have hval : lookupValue "gain" (enumValues d) = some 0 :=
    lookupValue_of_explicit "gain" 0 d 0 hnames hmem
  have haddr : addressOf d "gain" = some 0 := by
    unfold addressOf
    rw [hval]
    rfl
  exact ⟨haddr, haddr⟩

/-- Instance of `gain_stable_under_extension` at a table that adds one
enumerator before `gain = 0` and three after it, one of them with the same
value `0` and one numbered by position. -/
theorem gain_stable_under_extension_witness :
    List.Sublist SoundFontsPlusAUParameterAddress.declaration
      [⟨"pan", none⟩, ⟨"gain", some 0⟩, ⟨"reverb", some 7⟩, ⟨"mute", some 0⟩, ⟨"dry", none⟩] ∧
    (List.map Enumerator.name
      [⟨"pan", none⟩, ⟨"gain", some 0⟩, ⟨"reverb", some 7⟩, ⟨"mute", some 0⟩,
        ⟨"dry", none⟩]).Nodup ∧
    addressOf
      [⟨"pan", none⟩, ⟨"gain", some 0⟩, ⟨"reverb", some 7⟩, ⟨"mute", some 0⟩, ⟨"dry", none⟩]
      "gain" = addressOf SoundFontsPlusAUParameterAddress.declaration "gain" ∧
    addressOf
      [⟨"pan", none⟩, ⟨"gain", some 0⟩, ⟨"reverb", some 7⟩, ⟨"mute", some 0⟩, ⟨"dry", none⟩]
      "gain" = some 0 :=
  ⟨by decide, by decide,
    gain_stable_under_extension
      [⟨"pan", none⟩, ⟨"gain", some 0⟩, ⟨"reverb", some 7⟩, ⟨"mute", some 0⟩, ⟨"dry", none⟩]
      (by decide) (by decide)⟩

end SoundFontsPlus
